import Mathlib

/-!
# Verification of the nmath storage layer

A shallow embedding of `src/math/src/storage/{mod.rs, impls.rs}`.

The stack-storage types (`Entry`, `ArrayStorage<S, N>`, `Join<A, B>`) form a
closed grammar, embedded here as the inductive `StTy`.  A value of a stack
storage type is embedded by `StTy.Val`.  The `StackStorage` safety contract
("the type has the same layout and alignment as `[T; Self::SIZE]`") is
embedded by the flattening function `toList`: the flat list of inner elements
is the memory representation of the value, and every slice-based operation
(`_borrow`, `_get`, `_index`, `_len`) acts on it.

Machine integers (`usize`) are modelled as `Nat`; the sizes involved are tiny
and no arithmetic here can overflow in the source.  Panics are modelled by
`Except String` carrying the source panic message; reads of uninitialized
memory (undefined behaviour) are modelled by an inner `Option`, with `none`
meaning UB.
-/

namespace NmathStorage

/-- The grammar of `StackStorage` types over a fixed inner type:
`Entry<T>`, `ArrayStorage<S, N>` and `Join<A, B>`. -/
inductive StTy
  | entry : StTy
  | arr : StTy → Nat → StTy
  | join : StTy → StTy → StTy
deriving DecidableEq

/-- `const fn times` from impls.rs line 355. -/
def times (size : Option Nat) (n : Nat) : Option Nat :=
  match size with
  | some u => some (u * n)
  | none => none

/-- `const fn add` from impls.rs line 441. -/
def add (a b : Option Nat) : Option Nat :=
  match a, b with
  | some a, some b => some (a + b)
  | _, _ => none

/-- `const fn unwrap` from mod.rs line 221: `None` becomes `usize::MAX`. -/
def unwrap (size : Option Nat) : Nat :=
  match size with
  | some u => u
  | none => 2 ^ 64 - 1

/-- The associated constant `Storage::SIZE` of each stack storage type:
`Entry` declares `Some(1)`, `ArrayStorage<S, N>` declares `times(S::SIZE, N)`,
`Join<A, B>` declares `add(A::SIZE, B::SIZE)`. -/
def StTy.SIZEOPT : StTy → Option Nat
  | .entry => some 1
  | .arr S N => times S.SIZEOPT N
  | .join A B => add A.SIZEOPT B.SIZEOPT

/-- `StackStorage::SIZE_U = unwrap(Self::SIZE)` (mod.rs line 241). -/
def StTy.SIZE_U (S : StTy) : Nat := unwrap S.SIZEOPT

/-- The Lean type of values of each stack storage type with inner type `α`:
`Entry<T>` is a single element (`repr(transparent)` newtype),
`ArrayStorage<S, N>` is `[S; N]` (a list of exactly `N` sub-values),
`Join<A, B>` is a `repr(C)` pair. -/
def StTy.Val : StTy → Type → Type
  | .entry, α => α
  | .arr S N, α => { l : List (S.Val α) // l.length = N }
  | .join A B, α => A.Val α × B.Val α

/-- The memory representation of a stack storage value as a flat list of
inner elements.  This embeds the `StackStorage` layout guarantee: `Entry` is
`repr(transparent)` over one element, `ArrayStorage` is `repr(transparent)`
over `[S; N]` so its bytes are the concatenation of its components' bytes,
and `Join` is `repr(C)` over two stack storages, so its bytes are `A`'s bytes
followed by `B`'s.  `StackStorage::_borrow` returns exactly this list
(mod.rs lines 249-251). -/
def toList : (S : StTy) → S.Val α → List α
  | .entry, x => [x]
  | .arr S _, v => (v.1.map (toList S)).flatten
  | .join A B, v => toList A v.1 ++ toList B v.2

/-- `Storage::get` of each stack storage type.  `Entry::get` is the literal
`(index == 0).then(|| &self.0)` (impls.rs line 190); `ArrayStorage` and
`Join` use `ContiguousStorage::_get`, i.e. `self.as_slice().get(index)` over
the flat `_borrow` slice. -/
def Sget : (S : StTy) → S.Val α → Nat → Option α
  | .entry, x, i => if i = 0 then some x else none
  | .arr S N, v, i => (toList (.arr S N) v).get? i
  | .join A B, v, i => (toList (.join A B) v).get? i

/-- `Storage::len` of each stack storage type, exactly as written:
`Entry::len` returns `1`, `ArrayStorage::<S, N>::len` returns `N`
(impls.rs line 373), `Join::len` returns `Self::SIZE_U` (impls.rs line 459). -/
def Slen : (S : StTy) → S.Val α → Nat
  | .entry, _ => 1
  | .arr _ N, _ => N
  | .join A B, _ => (StTy.join A B).SIZE_U

/-- The panicking `Index` operation.  All three types route it through
`ContiguousStorage::_index`, i.e. `&self.as_slice()[index]`, which panics
iff the index is out of bounds of the flat slice. -/
def Sindex (S : StTy) (v : S.Val α) (i : Nat) : Except String α :=
  match (toList S v).get? i with
  | some x => .ok x
  | none => .error "index out of bounds"

/-- `IntoIterator` of each stack storage type, as a list of the yielded
elements: `Entry` yields `iter::once(self.0)` (impls.rs line 181),
`ArrayStorage` yields the flattened iterators of its components
(impls.rs lines 334-338), `Join` chains the iterators of its two halves
(impls.rs line 437). -/
def intoIter : (S : StTy) → S.Val α → List α
  | .entry, x => [x]
  | .arr S _, v => (v.1.map (intoIter S)).flatten
  | .join A B, v => intoIter A v.1 ++ intoIter B v.2

/-- Splits a flat list into `N` consecutive chunks of `sz` elements, decoding
each with `fs`; fails if a chunk cannot be decoded or if elements are left
over.  Helper for `fromFlat` below. -/
def fromChunks (fs : List α → Option β) (sz : Nat) :
    (N : Nat) → List α → Option { xs : List β // xs.length = N }
  | 0, l => if l.isEmpty then some ⟨[], rfl⟩ else none
  | N + 1, l =>
      (fs (l.take sz)).bind fun x =>
        (fromChunks fs sz N (l.drop sz)).bind fun xs =>
          some ⟨x :: xs.1, by simp [xs.2]⟩

/-- Decodes a flat memory representation (a list of inner elements) back into
a stack storage value.  This is the embedding of the reinterpretation done by
`mem::transmute_copy` in `UninitStackStorage::init` and
`StackStorage::transmute_buffer`: under the `StackStorage` layout guarantee,
reinterpreting the bytes of a flat array as `S` produces the unique value of
`S` whose representation is that array.  The theorems `toList_fromFlat` and
`fromFlat_toList` below establish that `fromFlat` is that inverse. -/
def fromFlat : (S : StTy) → List α → Option (S.Val α)
  | .entry, l =>
      match l with
      | [x] => some x
      | _ => none
  | .arr S N, l => fromChunks (fromFlat S) S.SIZE_U N l
  | .join A B, l =>
      (fromFlat A (l.take A.SIZE_U)).bind fun a =>
        (fromFlat B (l.drop A.SIZE_U)).bind fun b => some (a, b)

/-! ## The staged initializer `UninitStackStorage<S>` (mod.rs lines 136-219)

The backing `MaybeUninit<S>` memory is modelled slot by slot: `mem i` is
`some x` when slot `i` has been written with `x` and `none` when it is
uninitialized.  Reading an uninitialized slot is undefined behaviour, so
every operation that reads memory returns `none` in that case. -/

/-- `UninitStackStorage`: uninitialized backing memory plus the count of
elements set so far. -/
structure Uninit (α : Type) where
  mem : Nat → Option α
  len : Nat

/-- `UninitStackStorage::new`: fully uninitialized memory, count `0`. -/
def Uninit.new : Uninit α := ⟨fun _ => none, 0⟩

/-- `UninitStackStorage::push` (mod.rs lines 164-175): if `self.len < S::SIZE_U`,
write `value` at offset `self.len` and increment the count; otherwise panic
with "stack storage full" — the write and the increment are both skipped on
the panic path, leaving the builder untouched. -/
def Uninit.push (cap : Nat) (s : Uninit α) (v : α) : Except String (Uninit α) :=
  if s.len < cap then
    .ok ⟨fun i => if i = s.len then some v else s.mem i, s.len + 1⟩
  else
    .error "stack storage full"

/-- Reads slots `0, 1, …, n-1` in order; `none` if any of them is
uninitialized (that read would be undefined behaviour). -/
def readSlots (mem : Nat → Option α) : Nat → Option (List α)
  | 0 => some []
  | n + 1 => (readSlots mem n).bind fun l => (mem n).map fun x => l ++ [x]

/-- `impl Drop for UninitStackStorage` (mod.rs lines 207-219): destroys the
elements at offsets `0..self.len`, in order.  The result is the list of
elements destructed, or `none` if the loop would touch an uninitialized
slot. -/
def Uninit.dropRun (s : Uninit α) : Option (List α) := readSlots s.mem s.len

/-- `UninitStackStorage::init` (mod.rs lines 181-188): if the count equals
`S::SIZE_U`, reinterpret the backing memory as a finished `S`
(`mem::transmute_copy`, embedded as reading all `S::SIZE_U` slots and
decoding via `fromFlat`); otherwise panic with "stack storage not full". -/
def Uninit.init (S : StTy) (s : Uninit α) : Except String (Option (S.Val α)) :=
  if s.len = S.SIZE_U then .ok ((readSlots s.mem S.SIZE_U).bind (fromFlat S))
  else .error "stack storage not full"

/-- `Extend for UninitStackStorage` (mod.rs lines 191-197): push each element
of the sequence in order, propagating the first panic. -/
def Uninit.extendList (cap : Nat) (s : Uninit α) : List α → Except String (Uninit α)
  | [] => .ok s
  | v :: l => (s.push cap v).bind fun t => t.extendList cap l

/-- The builder state in which exactly the elements of `w` have been pushed,
in order: slots `0..w.length` hold `w` and all others are uninitialized. -/
def stateOf (w : List α) : Uninit α := ⟨fun i => w.get? i, w.length⟩

/-- `StackStorage::_from_iter` (mod.rs lines 244-246):
`iter.into_iter().collect::<UninitStackStorage<_>>().init()`, i.e. push every
element in order into a fresh staged initializer, then `init`.  This is the
`FromIterator` implementation of `ArrayStorage` (impls.rs line 320) and of
`Join` (impls.rs line 428). -/
def stackFromIter (S : StTy) (l : List α) : Except String (Option (S.Val α)) :=
  (Uninit.new.extendList S.SIZE_U l).bind (Uninit.init S)

/-- `impl FromIterator for Entry` (impls.rs lines 170-174):
`Self(iter.into_iter().next().unwrap())` — take the first element, panic if
there is none, and drop the rest of the iterator unconsumed. -/
def entryFromIter (l : List α) : Except String α :=
  match l with
  | [] => .error "called Option::unwrap() on a None value"
  | x :: _ => .ok x

/-! ## Layout operations: merge and transmute -/

/-- `Join::new` (impls.rs line 395), which is also
`JoinStorage::merge for Join` (impls.rs line 594) and the body of
`StackStorage::merge_join` (mod.rs line 260): direct aggregation of the two
buffers, no copying. -/
def merge (A B : StTy) (a : A.Val α) (b : B.Val α) : (StTy.join A B).Val α :=
  (a, b)

/-- The total memory size of a stack storage type: by the `StackStorage`
layout guarantee the type has the layout of `[T; SIZE_U]`, so
`mem::size_of::<Self>() = SIZE_U * size_of::<T>()`. -/
def memSizeOf (elemSize : Nat) (S : StTy) : Nat := S.SIZE_U * elemSize

/-- The alignment of a stack storage type: by the layout guarantee it equals
the alignment of `[T; SIZE_U]`, which is the alignment of `T` (and in
particular does not depend on the shape of `S`). -/
def alignOfSt (elemAlign : Nat) (_S : StTy) : Nat := elemAlign

/-- `StackStorage::transmute_buffer` (mod.rs lines 273-284): assert
`Self::SIZE == S::SIZE`, then `size_of`, then `align_of`; when all hold,
bitwise-copy the representation into the new type and forget the source
(`mem::transmute_copy` of a `ManuallyDrop`, so the source destructor never
runs).  The bitwise copy is embedded as decoding the source's flat memory
representation at the target type; the inner `Option` is `none` only if that
reinterpretation were ill-formed. -/
def transmuteBuffer (elemSize elemAlign : Nat) (S T : StTy) (v : S.Val α) :
    Except String (Option (T.Val α)) :=
  if S.SIZEOPT = T.SIZEOPT then
    if memSizeOf elemSize S = memSizeOf elemSize T then
      if alignOfSt elemAlign S = alignOfSt elemAlign T then
        .ok (fromFlat T (toList S v))
      else .error "assertion failed: align_of"
    else .error "assertion failed: size_of"
  else .error "assertion failed: Self::SIZE == S::SIZE"

/-- `StackStorage::transmute_array::<N>` (mod.rs lines 297-299):
`self.transmute_buffer::<ArrayStorage<Entry<Inner>, N>>()`. -/
def transmuteArray (elemSize elemAlign : Nat) (S : StTy) (N : Nat) (v : S.Val α) :
    Except String (Option ((StTy.arr .entry N).Val α)) :=
  transmuteBuffer elemSize elemAlign S (StTy.arr .entry N) v

/-! ## `StorageMut::swap` (mod.rs lines 57-64)

`swap` takes raw pointers from `get_mut(i).unwrap()` and `get_mut(j).unwrap()`
and calls `ptr::swap(a, b)`.  For every storage type in this layer `get_mut`
succeeds exactly on the indices of the flat element buffer (`_get_mut` over
the borrowed slice; `Entry::get_mut` at index 0 of its single-element
representation), so the mutable state is the flat list and `ptr::swap`
exchanges the two positions — `ptr::swap` is specified to work (as a swap
through a temporary) when both pointers are equal, leaving the value
unchanged. -/
def swapSt (l : List α) (i j : Nat) : Except String (List α) :=
  match l.get? i, l.get? j with
  | some a, some b => .ok ((l.set i b).set j a)
  | _, _ => .error "called Option::unwrap() on a None value"

/-! ## `VecStorage<S>` (impls.rs lines 471-583)

A value is the backing `Vec<S>`, i.e. a list of chunks. -/

/-- `Borrow<[S::Inner]> for VecStorage` (impls.rs lines 509-516): the chunk
block reinterpreted as one flat slice of `self.0.len() * S::SIZE_U` inner
elements — under the `StackStorage` layout guarantee this is the
concatenation of the chunks' flat representations. -/
def vecBorrow (S : StTy) (v : List (S.Val α)) : List α :=
  (v.map (toList S)).flatten

/-- `VecStorage::get = _get`: lookup in the flat borrowed slice. -/
def vecGet (S : StTy) (v : List (S.Val α)) (i : Nat) : Option α :=
  (vecBorrow S v).get? i

/-- `VecStorage::len = _len`: the length of the flat borrowed slice. -/
def vecLen (S : StTy) (v : List (S.Val α)) : Nat :=
  (vecBorrow S v).length

/-- `IntoIterator for VecStorage` (impls.rs lines 557-562): the flattened
iterators of the chunks. -/
def vecIntoIter (S : StTy) (v : List (S.Val α)) : List α :=
  (v.map (intoIter S)).flatten

/-- The inner fill loop of `FromIterator for VecStorage` (impls.rs lines
542-544): `for _ in 1..S::SIZE_U { uninit.push(iter.next().expect("iterator
could not fill inner type")) }` — `k` remaining iterations, consuming from
the front of `l` and returning the unconsumed rest. -/
def fillLoop (cap : Nat) (s : Uninit α) : Nat → List α → Except String (Uninit α × List α)
  | 0, l => .ok (s, l)
  | _ + 1, [] => .error "iterator could not fill inner type"
  | k + 1, v :: l => (s.push cap v).bind fun t => fillLoop cap t k l

/-- The outer loop of `FromIterator for VecStorage` (impls.rs lines 535-547):
`while let Some(val) = iter.next()`, build one chunk through a fresh staged
initializer (one `push` of `val`, then the fill loop for the remaining
`S::SIZE_U - 1` slots), `init` it, push it onto the vector, repeat on the
rest of the iterator.  On the `ok` path of `fillLoop` the unconsumed rest is
exactly `l'.drop (S.SIZE_U - 1)` (`fillLoop_stateOf` below), which is what
the recursion descends on. -/
def vecFromIterLoop (S : StTy) (l : List α) : Except String (List (Option (S.Val α))) :=
  match l with
  | [] => .ok []
  | v :: l' =>
      (Uninit.push S.SIZE_U Uninit.new v).bind fun s0 =>
        (fillLoop S.SIZE_U s0 (S.SIZE_U - 1) l').bind fun p =>
          (Uninit.init S p.1).bind fun c =>
            (vecFromIterLoop S (l'.drop (S.SIZE_U - 1))).bind fun cs =>
              .ok (c :: cs)
termination_by l.length
decreasing_by simp [List.length_drop]; omega

/-- `impl FromIterator for VecStorage` (impls.rs lines 530-550): if
`S::SIZE_U == 0`, return the empty vector without consuming the iterator;
otherwise run the chunking loop. -/
def vecFromIter (S : StTy) (l : List α) : Except String (List (Option (S.Val α))) :=
  if S.SIZE_U = 0 then .ok [] else vecFromIterLoop S l

/-! ## Concrete example values used by the evaluation theorems -/

/-- The `Entry(x)` constructor (impls.rs line 124): a value of the
single-element leaf buffer. -/
def mkEntry (x : α) : StTy.entry.Val α := x

/-- `ArrayStorage([Entry(1), Entry(2)]) : ArrayStorage<Entry<usize>, 2>`. -/
def exInner : (StTy.arr .entry 2).Val Nat := ⟨[mkEntry 1, mkEntry 2], rfl⟩

/-- `ArrayStorage([ArrayStorage([Entry(1), Entry(2)])]) :
ArrayStorage<ArrayStorage<Entry<usize>, 2>, 1>` — a nested array storage,
analogous to the value `a` built in the crate's own `merge` test
(impls.rs line 617). -/
def exNested : (StTy.arr (StTy.arr .entry 2) 1).Val Nat := ⟨[exInner], rfl⟩

end NmathStorage

namespace NmathStorage

/-! ## General lemmas about the embedding -/

theorem unwrap_some (u : Nat) : unwrap (some u) = u := rfl

/-- Every stack storage type has a statically known size. -/
theorem StTy.SIZEOPT_isSome (S : StTy) : ∃ u, S.SIZEOPT = some u := by
  induction S with
  | entry => exact ⟨1, rfl⟩
  | arr S N ih =>
      obtain ⟨u, hu⟩ := ih
      exact ⟨u * N, by simp [StTy.SIZEOPT, times, hu]⟩
  | join A B ihA ihB =>
      obtain ⟨a, ha⟩ := ihA
      obtain ⟨b, hb⟩ := ihB
      exact ⟨a + b, by simp [StTy.SIZEOPT, add, ha, hb]⟩

theorem StTy.SIZEOPT_eq (S : StTy) : S.SIZEOPT = some S.SIZE_U := by
  obtain ⟨u, hu⟩ := S.SIZEOPT_isSome
  unfold StTy.SIZE_U
  rw [hu]
  rfl

theorem StTy.SIZE_U_entry : StTy.entry.SIZE_U = 1 := rfl

theorem StTy.SIZE_U_arr (S : StTy) (N : Nat) :
    (StTy.arr S N).SIZE_U = S.SIZE_U * N := by
  show unwrap (times S.SIZEOPT N) = S.SIZE_U * N
  rw [S.SIZEOPT_eq]
  rfl

theorem StTy.SIZE_U_join (A B : StTy) :
    (StTy.join A B).SIZE_U = A.SIZE_U + B.SIZE_U := by
  show unwrap (add A.SIZEOPT B.SIZEOPT) = A.SIZE_U + B.SIZE_U
  rw [A.SIZEOPT_eq, B.SIZEOPT_eq]
  rfl

theorem toList_length (S : StTy) (v : S.Val α) :
    (toList S v).length = S.SIZE_U := by
  induction S with
  | entry => rfl
  | arr S N ih =>
      obtain ⟨l, hl⟩ := v
      simp only [toList, List.length_flatten, List.map_map]
      rw [StTy.SIZE_U_arr]
      calc (l.map (fun x => (toList S x).length)).sum
          = (l.map (fun _ => S.SIZE_U)).sum := by
            congr 1
            exact List.map_congr_left fun x _ => ih x
        _ = S.SIZE_U * N := by
            simp [List.map_const, List.sum_replicate, smul_eq_mul, hl, Nat.mul_comm]
  | join A B ihA ihB =>
      obtain ⟨a, b⟩ := v
      simp [toList, StTy.SIZE_U_join, ihA, ihB]

/-- On every stack storage type, `get` agrees with lookup in the flat
memory representation (for `Entry` this is a case check; for the composites
it is the definition). -/
theorem Sget_eq_get? (S : StTy) (v : S.Val α) (i : Nat) :
    Sget S v i = (toList S v).get? i := by
  cases S with
  | entry =>
      cases i with
      | zero => rfl
      | succ n => rfl
  | arr S N => rfl
  | join A B => rfl

/-- Decomposition by iteration yields exactly the memory representation. -/
theorem intoIter_eq_toList (S : StTy) (v : S.Val α) :
    intoIter S v = toList S v := by
  induction S with
  | entry => rfl
  | arr S N ih =>
      obtain ⟨l, hl⟩ := v
      simp only [intoIter, toList]
      congr 1
      exact List.map_congr_left fun x _ => ih x
  | join A B ihA ihB =>
      obtain ⟨a, b⟩ := v
      simp [intoIter, toList, ihA, ihB]

/-- If a flat list splits into decodable chunks, flattening the decoded
chunks recovers the list.  Helper for `toList_fromFlat`. -/
theorem flatten_fromChunks (S : StTy) (N : Nat) (l : List α)
    (xs : { xs : List (S.Val α) // xs.length = N })
    (ih : ∀ (l' : List α) (w : S.Val α), fromFlat S l' = some w → toList S w = l')
    (h : fromChunks (fromFlat S) S.SIZE_U N l = some xs) :
    (xs.1.map (toList S)).flatten = l := by
  induction N generalizing l with
  | zero =>
      simp only [fromChunks] at h
      split at h
      case _ hl =>
        cases h
        simp [List.isEmpty_iff.mp hl]
      case _ => cases h
  | succ N ihN =>
      simp only [fromChunks, Option.bind_eq_bind, Option.bind_eq_some] at h
      obtain ⟨x, hx, xs', hxs', hcons⟩ := h
      cases hcons
      simp only [List.map_cons, List.flatten_cons]
      rw [ih _ _ hx, ihN _ _ hxs']
      exact List.take_append_drop _ l

/-- Decoding is a right inverse of the memory representation. -/
theorem toList_fromFlat (S : StTy) (l : List α) (w : S.Val α)
    (h : fromFlat S l = some w) : toList S w = l := by
  induction S generalizing l with
  | entry =>
      match l with
      | [x] =>
          simp only [fromFlat] at h
          cases h
          rfl
      | [] => simp [fromFlat] at h
      | x :: y :: l => simp [fromFlat] at h
  | arr S N ih =>
      simp only [fromFlat] at h
      simp only [toList]
      exact flatten_fromChunks S N l w ih h
  | join A B ihA ihB =>
      simp only [fromFlat, Option.bind_eq_bind, Option.bind_eq_some] at h
      obtain ⟨a, ha, b, hb, hpair⟩ := h
      cases hpair
      simp only [toList]
      rw [ihA _ _ ha, ihB _ _ hb]
      exact List.take_append_drop _ l

/-- Decoding is a left inverse of the memory representation. -/
theorem fromFlat_toList (S : StTy) (w : S.Val α) :
    fromFlat S (toList S w) = some w := by
  induction S with
  | entry => rfl
  | arr S N ih =>
      obtain ⟨l, hl⟩ := w
      have key : ∀ (N' : Nat) (l' : List (S.Val α)) (hN : l'.length = N'),
          fromChunks (fromFlat S) S.SIZE_U N' ((l'.map (toList S)).flatten)
            = some ⟨l', hN⟩ := by
        intro N'
        induction N' with
        | zero =>
            intro l' hN
            have : l' = [] := List.length_eq_zero.mp hN
            subst this
            rfl
        | succ N' ihN =>
            intro l' hN
            cases l' with
            | nil => simp at hN
            | cons x xs =>
                simp only [List.map_cons, List.flatten_cons, fromChunks,
                  Option.bind_eq_bind]
                have htake : (toList S x ++ (xs.map (toList S)).flatten).take S.SIZE_U
                    = toList S x := by
                  rw [List.take_append_of_le_length (by rw [toList_length])]
                  simp [List.take_of_length_le, toList_length]
                have hdrop : (toList S x ++ (xs.map (toList S)).flatten).drop S.SIZE_U
                    = (xs.map (toList S)).flatten := by
                  rw [List.drop_append_of_le_length (by rw [toList_length])]
                  simp [List.drop_of_length_le, toList_length]
                rw [htake, hdrop, ih x, ihN xs (by simpa using hN)]
                rfl
      exact key N l hl
  | join A B ihA ihB =>
      obtain ⟨a, b⟩ := w
      simp only [fromFlat, toList, Option.bind_eq_bind]
      have htake : (toList A a ++ toList B b).take A.SIZE_U = toList A a := by
        rw [List.take_append_of_le_length (by rw [toList_length])]
        simp [List.take_of_length_le, toList_length]
      have hdrop : (toList A a ++ toList B b).drop A.SIZE_U = toList B b := by
        rw [List.drop_append_of_le_length (by rw [toList_length])]
        simp [List.drop_of_length_le, toList_length]
      rw [htake, hdrop, ihA, ihB]
      rfl

/-- A flat list decodes successfully iff it has exactly the static size. -/
theorem fromFlat_isSome_iff (S : StTy) (l : List α) :
    (∃ w, fromFlat S l = some w) ↔ l.length = S.SIZE_U := by
  constructor
  · rintro ⟨w, hw⟩
    rw [← toList_fromFlat S l w hw, toList_length]
  · intro hlen
    induction S generalizing l with
    | entry =>
        rw [StTy.SIZE_U_entry] at hlen
        match l, hlen with
        | [x], _ => exact ⟨x, rfl⟩
    | arr S N ih =>
        rw [StTy.SIZE_U_arr] at hlen
        have key : ∀ (N' : Nat) (l' : List α), l'.length = S.SIZE_U * N' →
            ∃ xs, fromChunks (fromFlat S) S.SIZE_U N' l' = some xs := by
          intro N'
          induction N' with
          | zero =>
              intro l' hl'
              simp only [Nat.mul_zero, List.length_eq_zero] at hl'
              subst hl'
              exact ⟨⟨[], rfl⟩, rfl⟩
          | succ N' ihN =>
              intro l' hl'
              have hsz : S.SIZE_U ≤ l'.length := by
                rw [hl', Nat.mul_succ]
                exact Nat.le_add_left _ _
              have htake : (l'.take S.SIZE_U).length = S.SIZE_U := by
                simp [List.length_take, Nat.min_eq_left hsz]
              have hdrop : (l'.drop S.SIZE_U).length = S.SIZE_U * N' := by
                simp only [List.length_drop, hl', Nat.mul_succ]
                omega
              obtain ⟨x, hx⟩ := ih _ htake
              obtain ⟨xs, hxs⟩ := ihN _ hdrop
              exact ⟨⟨x :: xs.1, by simp [xs.2]⟩, by simp [fromChunks, hx, hxs]⟩
        obtain ⟨xs, hxs⟩ := key N l hlen
        exact ⟨xs, hxs⟩
    | join A B ihA ihB =>
        rw [StTy.SIZE_U_join] at hlen
        have htake : (l.take A.SIZE_U).length = A.SIZE_U := by
          simp [List.length_take]
          omega
        have hdrop : (l.drop A.SIZE_U).length = B.SIZE_U := by
          simp [List.length_drop]
          omega
        obtain ⟨a, ha⟩ := ihA _ htake
        obtain ⟨b, hb⟩ := ihB _ hdrop
        exact ⟨(a, b), by simp [fromFlat, ha, hb]⟩

/-! ## Lemmas about the staged initializer -/

theorem bindOk (a : β) (f : β → Except String γ) :
    (Except.ok a : Except String β).bind f = f a := rfl

theorem bindError (e : String) (f : β → Except String γ) :
    (Except.error e : Except String β).bind f = .error e := rfl

theorem new_eq_stateOf : (Uninit.new : Uninit α) = stateOf [] := by
  unfold Uninit.new stateOf
  simp

theorem push_stateOf (cap : Nat) (w : List α) (v : α) (h : w.length < cap) :
    (stateOf w).push cap v = .ok (stateOf (w ++ [v])) := by
  unfold Uninit.push stateOf
  simp only [h, if_pos]
  congr 1
  refine congrArg₂ Uninit.mk ?_ (by simp)
  funext i
  show (if i = w.length then some v else w.get? i) = (w ++ [v]).get? i
  by_cases hi : i = w.length
  · rw [if_pos hi, hi, List.get?_concat_length]
  · rw [if_neg hi]
    rcases Nat.lt_or_ge i w.length with hlt | hge
    · exact (List.get?_append hlt).symm
    · have h1 : w.get? i = none := List.get?_eq_none.mpr hge
      have h2 : (w ++ [v]).get? i = none := List.get?_eq_none.mpr (by simp; omega)
      rw [h1, h2]

theorem push_full (cap : Nat) (s : Uninit α) (v : α) (h : cap ≤ s.len) :
    s.push cap v = .error "stack storage full" := by
  unfold Uninit.push
  simp [Nat.not_lt.mpr h]

theorem extendList_stateOf (cap : Nat) (w l : List α)
    (h : w.length + l.length ≤ cap) :
    (stateOf w).extendList cap l = .ok (stateOf (w ++ l)) := by
  induction l generalizing w with
  | nil => simp [Uninit.extendList]
  | cons v l ih =>
      simp only [Uninit.extendList]
      rw [push_stateOf cap w v (by simp at h; omega), bindOk]
      rw [ih (w ++ [v]) (by simp at h ⊢; omega)]
      simp

theorem extendList_overflow (cap : Nat) (w l : List α)
    (h : cap < w.length + l.length) (hw : w.length ≤ cap) :
    (stateOf w).extendList cap l = .error "stack storage full" := by
  induction l generalizing w with
  | nil => simp at h; omega
  | cons v l ih =>
      simp only [Uninit.extendList]
      rcases Nat.lt_or_ge w.length cap with hlt | hge
      · rw [push_stateOf cap w v hlt, bindOk]
        exact ih (w ++ [v]) (by simp at h ⊢; omega) (by simp; omega)
      · rw [push_full cap (stateOf w) v hge]
        rfl

theorem readSlots_stateOf (w : List α) (n : Nat) :
    readSlots (stateOf w).mem n = if n ≤ w.length then some (w.take n) else none := by
  induction n with
  | zero => simp [readSlots]
  | succ n ih =>
      simp only [readSlots, ih]
      have hmem : (stateOf w).mem n = w.get? n := rfl
      rcases Nat.lt_trichotomy n w.length with hlt | heq | hgt
      · rw [if_pos (Nat.le_of_lt hlt), if_pos (by omega)]
        cases hw : w.get? n with
        | none =>
            rw [List.get?_eq_none] at hw
            omega
        | some x =>
            rw [hmem, hw]
            have hx : w[n]? = some x := by
              rw [← List.get?_eq_getElem?]
              exact hw
            have ht : w.take (n + 1) = w.take n ++ [x] := by
              rw [List.take_succ, hx]
              rfl
            rw [ht]
            rfl
      · rw [if_pos (by omega), if_neg (by omega), hmem,
          List.get?_eq_none.mpr (by omega)]
        rfl
      · rw [if_neg (by omega), if_neg (by omega)]
        rfl

theorem dropRun_stateOf (w : List α) : (stateOf w).dropRun = some w := by
  unfold Uninit.dropRun
  rw [readSlots_stateOf]
  simp [stateOf]

theorem init_stateOf_eq (S : StTy) (w : List α) (hw : w.length = S.SIZE_U) :
    ∃ v : S.Val α, (stateOf w).init S = .ok (some v) ∧ toList S v = w := by
  obtain ⟨v, hv⟩ := (fromFlat_isSome_iff S w).mpr hw
  refine ⟨v, ?_, toList_fromFlat S w v hv⟩
  unfold Uninit.init
  rw [if_pos (by simpa [stateOf] using hw)]
  rw [readSlots_stateOf, if_pos (by omega), ← hw]
  simp [hv]

theorem init_stateOf_short (S : StTy) (w : List α) (hw : w.length ≠ S.SIZE_U) :
    (stateOf w).init S = .error "stack storage not full" := by
  unfold Uninit.init
  rw [if_neg (by simpa [stateOf] using hw)]

/-! ## Lemmas about `FromIterator` -/

theorem stackFromIter_short (S : StTy) (l : List α) (h : l.length < S.SIZE_U) :
    stackFromIter S l = .error "stack storage not full" := by
  unfold stackFromIter
  rw [new_eq_stateOf, extendList_stateOf S.SIZE_U [] l (by simpa using Nat.le_of_lt h),
    bindOk]
  exact init_stateOf_short S l (Nat.ne_of_lt h)

theorem stackFromIter_exact (S : StTy) (l : List α) (h : l.length = S.SIZE_U) :
    ∃ v : S.Val α, stackFromIter S l = .ok (some v) ∧ toList S v = l := by
  obtain ⟨v, hv, htl⟩ := init_stateOf_eq S l h
  refine ⟨v, ?_, htl⟩
  unfold stackFromIter
  rw [new_eq_stateOf, extendList_stateOf S.SIZE_U [] l (by simp [h]), bindOk]
  exact hv

theorem stackFromIter_long (S : StTy) (l : List α) (h : S.SIZE_U < l.length) :
    stackFromIter S l = .error "stack storage full" := by
  unfold stackFromIter
  rw [new_eq_stateOf, extendList_overflow S.SIZE_U [] l (by simpa using h) (by simp)]
  rfl

/-! ## Lemmas about `VecStorage` -/

theorem vecLen_eq (S : StTy) (v : List (S.Val α)) :
    vecLen S v = v.length * S.SIZE_U := by
  unfold vecLen vecBorrow
  induction v with
  | nil => simp
  | cons x xs ih =>
      simp only [List.map_cons, List.flatten_cons, List.length_append,
        toList_length, ih, List.length_cons]
      ring

theorem fillLoop_stateOf (cap k : Nat) (w l : List α) (hcap : w.length + k ≤ cap) :
    fillLoop cap (stateOf w) k l =
      if k ≤ l.length then .ok (stateOf (w ++ l.take k), l.drop k)
      else .error "iterator could not fill inner type" := by
  induction k generalizing w l with
  | zero => simp [fillLoop]
  | succ k ih =>
      cases l with
      | nil => simp [fillLoop]
      | cons v l =>
          simp only [fillLoop]
          rw [push_stateOf cap w v (by omega), bindOk]
          rw [ih (w ++ [v]) l (by simp; omega)]
          by_cases hk : k ≤ l.length
          · rw [if_pos hk, if_pos (by simp; omega)]
            simp
          · rw [if_neg hk, if_neg (by simp; omega)]

theorem vecFromIterLoop_nil (S : StTy) : vecFromIterLoop S ([] : List α) = .ok [] := by
  rw [vecFromIterLoop]

/-- One unfolding of the chunking loop. -/
theorem vecFromIterLoop_cons (S : StTy) (v : α) (l' : List α) :
    vecFromIterLoop S (v :: l') =
      (Uninit.push S.SIZE_U Uninit.new v).bind fun s0 =>
        (fillLoop S.SIZE_U s0 (S.SIZE_U - 1) l').bind fun p =>
          (Uninit.init S p.1).bind fun c =>
            (vecFromIterLoop S (l'.drop (S.SIZE_U - 1))).bind fun cs =>
              .ok (c :: cs) := by
  rw [vecFromIterLoop]

theorem vecFromIterLoop_spec (S : StTy) (hsz : S.SIZE_U ≠ 0) (n : Nat) :
    ∀ (l : List α), l.length ≤ n →
      (S.SIZE_U ∣ l.length →
        ∃ ws : List (S.Val α), vecFromIterLoop S l = .ok (ws.map some) ∧
          (ws.map (toList S)).flatten = l) ∧
      (¬ S.SIZE_U ∣ l.length →
        vecFromIterLoop S l = .error "iterator could not fill inner type") := by
  induction n with
  | zero =>
      intro l hl
      have : l = [] := List.length_eq_zero.mp (Nat.le_zero.mp hl)
      subst this
      exact ⟨fun _ => ⟨[], vecFromIterLoop_nil S, rfl⟩,
        fun hnd => absurd (dvd_zero S.SIZE_U) (by simpa using hnd)⟩
  | succ n ih =>
      intro l hl
      cases l with
      | nil =>
          exact ⟨fun _ => ⟨[], vecFromIterLoop_nil S, rfl⟩,
            fun hnd => absurd (dvd_zero S.SIZE_U) (by simpa using hnd)⟩
      | cons v l' =>
          rw [vecFromIterLoop_cons, new_eq_stateOf,
            push_stateOf S.SIZE_U [] v (by simpa using Nat.pos_of_ne_zero hsz),
            bindOk]
          rw [fillLoop_stateOf S.SIZE_U (S.SIZE_U - 1) ([] ++ [v]) l' (by simp; omega)]
          by_cases hfill : S.SIZE_U - 1 ≤ l'.length
          · rw [if_pos hfill, bindOk]
            have hlen : (([] ++ [v]) ++ l'.take (S.SIZE_U - 1)).length = S.SIZE_U := by
              simp [List.length_take]
              omega
            obtain ⟨w, hw, htl⟩ := init_stateOf_eq S _ hlen
            rw [hw, bindOk]
            have hrest : (l'.drop (S.SIZE_U - 1)).length ≤ n := by
              simp at hl ⊢
              omega
            have hdvd : S.SIZE_U ∣ (v :: l').length ↔
                S.SIZE_U ∣ (l'.drop (S.SIZE_U - 1)).length := by
              have harith : (v :: l').length =
                  (l'.drop (S.SIZE_U - 1)).length + S.SIZE_U := by
                simp [List.length_drop]
                omega
              rw [harith, Nat.add_comm]
              exact Nat.dvd_add_right (dvd_refl _)
            constructor
            · intro hd
              obtain ⟨ws', hok', hflat'⟩ := (ih _ hrest).1 (hdvd.mp hd)
              rw [hok', bindOk]
              refine ⟨w :: ws', by simp, ?_⟩
              simp only [List.map_cons, List.flatten_cons, htl, hflat']
              simp
            · intro hnd
              rw [(ih _ hrest).2 (hdvd.not.mp hnd)]
              rfl
          · rw [if_neg hfill]
            refine ⟨fun hd => absurd ?_ hfill, fun _ => rfl⟩
            have hle := Nat.le_of_dvd (by simp) hd
            simp at hle
            omega

/-- Top-level characterization of `FromIterator for VecStorage`:
with a zero-sized chunk type the result is immediately empty; otherwise it
succeeds iff the input length is a multiple of the chunk size, yielding the
chunks whose concatenated representations are the input, and panics with
"iterator could not fill inner type" on a trailing incomplete chunk. -/
theorem vecFromIter_spec (S : StTy) (l : List α) :
    (S.SIZE_U = 0 → vecFromIter S l = .ok []) ∧
    (S.SIZE_U ≠ 0 →
      (S.SIZE_U ∣ l.length →
        ∃ ws : List (S.Val α), vecFromIter S l = .ok (ws.map some) ∧
          vecBorrow S ws = l) ∧
      (¬ S.SIZE_U ∣ l.length →
        vecFromIter S l = .error "iterator could not fill inner type")) := by
  constructor
  · intro h0
    unfold vecFromIter
    rw [if_pos h0]
  · intro hsz
    have hspec := vecFromIterLoop_spec S hsz l.length l (le_refl _)
    unfold vecFromIter
    rw [if_neg hsz]
    exact hspec

end NmathStorage

namespace NmathStorage

/-! ## Claim theorems -/

/-- **C1** — code evaluation at the failing input.  For the nested array
storage `ArrayStorage([ArrayStorage([Entry(1), Entry(2)])])` the code's
`len()` returns `1` (the number of sub-buffers, impls.rs line 373), yet
`get(1)` succeeds with `Some(&2)` and the panicking index operation at
`1 >= len()` returns `2` without panicking, because both go through the flat
`S::SIZE * N = 2`-element slice.  This refutes, on the code as written, the
claim that `get(i)` is `Some` iff `i < len()` and that indexing at any
`i >= len()` panics; the code even contradicts its own provided
`Storage::size()` method, which as `Size::from_usize(self.len())` would hit
the `"size mismatch"` panic on this value since `SIZE = Some(2) ≠ 1`. -/
theorem C1_code_eval :
    Slen (StTy.arr (StTy.arr .entry 2) 1) exNested = 1 ∧
    Sget (StTy.arr (StTy.arr .entry 2) 1) exNested 1 = some 2 ∧
    Sindex (StTy.arr (StTy.arr .entry 2) 1) exNested 1 = .ok 2 :=
  ⟨rfl, rfl, rfl⟩

/-- **C2** — code evaluation at the failing input.  The same nested array
storage declares `SIZE = times(Some(2), 1) = Some(2)`, but its `len()`
returns `1 ≠ 2`: a buffer with statically known size does not report that
size at run time. -/
theorem C2_code_eval :
    (StTy.arr (StTy.arr .entry 2) 1).SIZEOPT = some 2 ∧
    Slen (StTy.arr (StTy.arr .entry 2) 1) exNested = 1 ∧ (1 : Nat) ≠ 2 :=
  ⟨rfl, rfl, by decide⟩

/-- **C3** — counterexample to the claim as stated.  `Entry` has static size
`1`, but its `FromIterator` (`Self(iter.into_iter().next().unwrap())`) given
the longer sequence `[1, 2]` does not panic: it succeeds with `Entry(1)` and
silently discards the excess element. -/
theorem C3_counterexample :
    StTy.entry.SIZE_U = 1 ∧ ([1, 2] : List Nat).length > 1 ∧
    entryFromIter ([1, 2] : List Nat) = .ok 1 :=
  ⟨rfl, by decide, rfl⟩

/-- **C3 (amended)** — fixed-layout buffers whose `FromIterator` goes through
the staged initializer (`ArrayStorage`, `Join`, via `_from_iter`) panic with
the "stack storage not full" condition on fewer than `SIZE` elements,
succeed on exactly `SIZE`, and panic with the "full" condition on more than
`SIZE` rather than discarding the excess.  `Entry`, whose `FromIterator` is
the custom `iter.next().unwrap()`, panics on an empty sequence but succeeds
on any nonempty one, taking the first element and discarding the rest. -/
theorem C3_from_iter_spec (S : StTy) (l : List α) :
    (l.length < S.SIZE_U → stackFromIter S l = .error "stack storage not full") ∧
    (l.length = S.SIZE_U → ∃ v, stackFromIter S l = .ok (some v)) ∧
    (S.SIZE_U < l.length → stackFromIter S l = .error "stack storage full") ∧
    entryFromIter ([] : List α) = .error "called Option::unwrap() on a None value" ∧
    ∀ (x : α) (rest : List α), entryFromIter (x :: rest) = .ok x := by
  refine ⟨stackFromIter_short S l, ?_, stackFromIter_long S l, rfl, fun x rest => rfl⟩
  intro h
  obtain ⟨v, hv, _⟩ := stackFromIter_exact S l h
  exact ⟨v, hv⟩

/-- Witness for C3: over `ArrayStorage<Entry<usize>, 2>` (size 2), one
element starves the builder, two succeed, three hit the full condition. -/
theorem C3_witness :
    stackFromIter (StTy.arr .entry 2) ([5] : List Nat)
      = .error "stack storage not full" ∧
    (∃ v, stackFromIter (StTy.arr .entry 2) ([5, 6] : List Nat) = .ok (some v)) ∧
    stackFromIter (StTy.arr .entry 2) ([5, 6, 7] : List Nat)
      = .error "stack storage full" :=
  ⟨(C3_from_iter_spec (StTy.arr .entry 2) [5]).1 (by decide),
   (C3_from_iter_spec (StTy.arr .entry 2) [5, 6]).2.1 (by decide),
   (C3_from_iter_spec (StTy.arr .entry 2) [5, 6, 7]).2.2.1 (by decide)⟩

/-- **C4** — building a fixed buffer of static size `N` from a sequence of
length exactly `N` and decomposing it back through `IntoIterator` yields the
original elements in the original order. -/
theorem C4_roundtrip (S : StTy) (l : List α) (h : l.length = S.SIZE_U) :
    ∃ v : S.Val α, stackFromIter S l = .ok (some v) ∧ intoIter S v = l := by
  obtain ⟨v, hv, htl⟩ := stackFromIter_exact S l h
  exact ⟨v, hv, by rw [intoIter_eq_toList, htl]⟩

/-- Witness for C4: round trip of `[3, 1, 2]` through
`Join<ArrayStorage<Entry<usize>, 2>, Entry<usize>>` (total size 3). -/
theorem C4_witness :
    ([3, 1, 2] : List Nat).length = (StTy.join (StTy.arr .entry 2) .entry).SIZE_U ∧
    ∃ v, stackFromIter (StTy.join (StTy.arr .entry 2) .entry) ([3, 1, 2] : List Nat)
        = .ok (some v) ∧
      intoIter (StTy.join (StTy.arr .entry 2) .entry) v = [3, 1, 2] :=
  ⟨by decide, C4_roundtrip (StTy.join (StTy.arr .entry 2) .entry) [3, 1, 2] (by decide)⟩

/-- **C5** — `merge(a, b)` (the `Join` construction) produces a buffer whose
run-time length is `m + n` and whose element at index `i` is `a`'s element at
`i` when `i < m` and `b`'s element at `i - m` when `m ≤ i < m + n`, where `m`
and `n` are the two buffers' sizes. -/
theorem C5_merge_spec (A B : StTy) (a : A.Val α) (b : B.Val α) (i : Nat) :
    Slen (StTy.join A B) (merge A B a b) = A.SIZE_U + B.SIZE_U ∧
    (i < A.SIZE_U → Sget (StTy.join A B) (merge A B a b) i = Sget A a i) ∧
    (A.SIZE_U ≤ i → i < A.SIZE_U + B.SIZE_U →
      Sget (StTy.join A B) (merge A B a b) i = Sget B b (i - A.SIZE_U)) := by
  refine ⟨?_, ?_, ?_⟩
  · show (StTy.join A B).SIZE_U = _
    exact StTy.SIZE_U_join A B
  · intro hi
    rw [Sget_eq_get? (StTy.join A B), Sget_eq_get? A]
    show (toList A a ++ toList B b).get? i = _
    exact List.get?_append (by rw [toList_length]; exact hi)
  · intro hi _
    rw [Sget_eq_get? (StTy.join A B), Sget_eq_get? B]
    show (toList A a ++ toList B b).get? i = _
    rw [List.get?_append_right (by rw [toList_length]; exact hi), toList_length]

/-- Witness for C5: merging `ArrayStorage([Entry(1), Entry(2)])` (size 2)
with `Entry(3)` (size 1); index 0 reads from the left half, index 2 from the
right. -/
theorem C5_witness :
    Slen (StTy.join (StTy.arr .entry 2) .entry)
      (merge (StTy.arr .entry 2) .entry exInner (mkEntry 3)) = 2 + 1 ∧
    Sget (StTy.join (StTy.arr .entry 2) .entry)
        (merge (StTy.arr .entry 2) .entry exInner (mkEntry 3)) 0
      = Sget (StTy.arr .entry 2) exInner 0 ∧
    Sget (StTy.join (StTy.arr .entry 2) .entry)
        (merge (StTy.arr .entry 2) .entry exInner (mkEntry 3)) 2
      = Sget .entry (mkEntry 3) (2 - (StTy.arr .entry 2).SIZE_U) :=
  ⟨(C5_merge_spec (StTy.arr .entry 2) .entry exInner (mkEntry 3) 0).1,
   (C5_merge_spec (StTy.arr .entry 2) .entry exInner (mkEntry 3) 0).2.1 (by decide),
   (C5_merge_spec (StTy.arr .entry 2) .entry exInner (mkEntry 3) 2).2.2
     (by decide) (by decide)⟩

/-- **C6** — `transmute_buffer` panics iff the two types' static sizes
differ; a difference in total memory size implies a difference in static
size, and alignments never differ (both are layout consequences of the
`StackStorage` guarantee), so equivalently it panics iff static size, memory
size or alignment differ.  When they agree it succeeds, and the result's
memory representation is exactly the input's — every element value, each
exactly once, in the original order — with the source forgotten rather than
dropped.  Consequently `transmute_array::<N>` of any buffer of total size
`N` preserves element order and all element values. -/
theorem C6_transmute_spec (es ea : Nat) (S T : StTy) (N : Nat) (v : S.Val α) :
    ((∃ e, transmuteBuffer es ea S T v = .error e) ↔ S.SIZEOPT ≠ T.SIZEOPT) ∧
    (memSizeOf es S ≠ memSizeOf es T → S.SIZEOPT ≠ T.SIZEOPT) ∧
    alignOfSt ea S = alignOfSt ea T ∧
    (S.SIZEOPT = T.SIZEOPT →
      ∃ w, transmuteBuffer es ea S T v = .ok (some w) ∧ toList T w = toList S v) ∧
    (S.SIZE_U = N →
      ∃ w, transmuteArray es ea S N v = .ok (some w) ∧
        toList (StTy.arr .entry N) w = toList S v) := by
  have hsz_of_opt : ∀ (U : StTy), S.SIZEOPT = U.SIZEOPT → S.SIZE_U = U.SIZE_U := by
    intro U h
    rw [S.SIZEOPT_eq, U.SIZEOPT_eq] at h
    exact Option.some.inj h
  have hok : ∀ (U : StTy), S.SIZEOPT = U.SIZEOPT →
      ∃ w, transmuteBuffer es ea S U v = .ok (some w) ∧ toList U w = toList S v := by
    intro U h
    have hlen : (toList S v).length = U.SIZE_U := by
      rw [toList_length, hsz_of_opt U h]
    obtain ⟨w, hw⟩ := (fromFlat_isSome_iff U (toList S v)).mpr hlen
    refine ⟨w, ?_, toList_fromFlat U (toList S v) w hw⟩
    unfold transmuteBuffer
    rw [if_pos h, if_pos (by unfold memSizeOf; rw [hsz_of_opt U h]),
      if_pos (show alignOfSt ea S = alignOfSt ea U from rfl), hw]
  refine ⟨?_, ?_, rfl, hok T, fun hN => hok (StTy.arr .entry N) ?_⟩
  · constructor
    · rintro ⟨e, he⟩ hopt
      obtain ⟨w, hw, _⟩ := hok T hopt
      rw [hw] at he
      cases he
    · intro hopt
      refine ⟨"assertion failed: Self::SIZE == S::SIZE", ?_⟩
      unfold transmuteBuffer
      rw [if_neg hopt]
  · intro hne hopt
    exact hne (by unfold memSizeOf; rw [hsz_of_opt T hopt])
  · rw [S.SIZEOPT_eq, (StTy.arr .entry N).SIZEOPT_eq, hN, StTy.SIZE_U_arr,
      StTy.SIZE_U_entry, Nat.one_mul]

/-- Witness for C6: transmuting `Join<Entry, Entry>` holding `(1, 2)` into
`ArrayStorage<Entry<usize>, 2>` succeeds and preserves the flat contents. -/
theorem C6_witness :
    (StTy.join .entry .entry).SIZEOPT = (StTy.arr .entry 2).SIZEOPT ∧
    (∃ w, transmuteBuffer 8 8 (StTy.join .entry .entry) (StTy.arr .entry 2)
        (merge .entry .entry (mkEntry 1) (mkEntry 2)) = .ok (some w) ∧
      toList (StTy.arr .entry 2) w
        = toList (StTy.join .entry .entry) (merge .entry .entry (mkEntry 1) (mkEntry 2))) ∧
    (∃ w, transmuteArray 8 8 (StTy.join .entry .entry) 2
        (merge .entry .entry (mkEntry 1) (mkEntry 2)) = .ok (some w) ∧
      toList (StTy.arr .entry 2) w
        = toList (StTy.join .entry .entry) (merge .entry .entry (mkEntry 1) (mkEntry 2))) :=
  ⟨by decide,
   (C6_transmute_spec 8 8 (StTy.join .entry .entry) (StTy.arr .entry 2) 2
       (merge .entry .entry (mkEntry 1) (mkEntry 2))).2.2.2.1 (by decide),
   (C6_transmute_spec 8 8 (StTy.join .entry .entry) (StTy.arr .entry 2) 2
       (merge .entry .entry (mkEntry 1) (mkEntry 2))).2.2.2.2 (by decide)⟩

/-- **C7** — `VecStorage<S>` construction from a sequence consumes it in
groups of exactly `S.size` elements through the staged initializer: it
succeeds iff the sequence length is a multiple of `S.size` (the union of the
chunks, in order, being exactly the input), panics with "iterator could not
fill inner type" iff it is not, and when `S.size = 0` it returns an
immediately-empty buffer without consuming the sequence. -/
theorem C7_vec_from_iter_spec (S : StTy) (l : List α) :
    (S.SIZE_U = 0 → vecFromIter S l = .ok []) ∧
    (S.SIZE_U ≠ 0 →
      ((∃ cs, vecFromIter S l = .ok cs) ↔ S.SIZE_U ∣ l.length) ∧
      (¬ S.SIZE_U ∣ l.length →
        vecFromIter S l = .error "iterator could not fill inner type") ∧
      (S.SIZE_U ∣ l.length →
        ∃ ws : List (S.Val α), vecFromIter S l = .ok (ws.map some) ∧
          vecBorrow S ws = l)) := by
  obtain ⟨h0, hpos⟩ := vecFromIter_spec S l
  refine ⟨h0, fun hsz => ⟨⟨?_, ?_⟩, (hpos hsz).2, (hpos hsz).1⟩⟩
  · rintro ⟨cs, hcs⟩
    by_contra hnd
    rw [(hpos hsz).2 hnd] at hcs
    cases hcs
  · intro hd
    obtain ⟨ws, hws, _⟩ := (hpos hsz).1 hd
    exact ⟨ws.map some, hws⟩

/-- Witness for C7: with zero-size chunks (`ArrayStorage<Entry, 0>`) the
buffer is empty at once; with size-2 chunks, 3 elements panic and 4 build two
chunks concatenating back to the input. -/
theorem C7_witness :
    vecFromIter (StTy.arr .entry 0) ([1] : List Nat) = .ok [] ∧
    vecFromIter (StTy.arr .entry 2) ([1, 2, 3] : List Nat)
      = .error "iterator could not fill inner type" ∧
    ∃ ws, vecFromIter (StTy.arr .entry 2) ([1, 2, 3, 4] : List Nat)
      = .ok (ws.map some) ∧ vecBorrow (StTy.arr .entry 2) ws = [1, 2, 3, 4] :=
  ⟨(C7_vec_from_iter_spec (StTy.arr .entry 0) ([1] : List Nat)).1 (by decide),
   ((C7_vec_from_iter_spec (StTy.arr .entry 2) ([1, 2, 3] : List Nat)).2
     (by decide)).2.1 (by decide),
   ((C7_vec_from_iter_spec (StTy.arr .entry 2) ([1, 2, 3, 4] : List Nat)).2
     (by decide)).2.2 (by decide)⟩

/-- **C8** — a staged initializer of capacity `n` into which exactly
`k < n` elements have been pushed, discarded without `init`, destructs
exactly those `k` elements, in push order, each exactly once (the list of
destructed elements is exactly the pushed list), and reads none of the
`n - k` uninitialized slots (the drop loop yields `some`, i.e. never touches
uninitialized memory). -/
theorem C8_partial_drop (n : Nat) (l : List α) (h : l.length < n) :
    ∃ s, Uninit.new.extendList n l = .ok s ∧ s.dropRun = some l := by
  refine ⟨stateOf l, ?_, dropRun_stateOf l⟩
  rw [new_eq_stateOf]
  simpa using extendList_stateOf n [] l (by simpa using Nat.le_of_lt h)

/-- Witness for C8: the spec's own scenario — capacity 4, two elements
pushed, drop destructs exactly those two. -/
theorem C8_witness :
    ([10, 20] : List Nat).length < 4 ∧
    ∃ s, Uninit.new.extendList 4 ([10, 20] : List Nat) = .ok s ∧
      s.dropRun = some [10, 20] :=
  ⟨by decide, C8_partial_drop 4 [10, 20] (by decide)⟩

/-- **C9** — pushing into a staged initializer whose count already equals
`S.size` panics with "stack storage full" before modifying the builder: the
builder state reached by the successful pushes is exactly what a later drop
sees, its count still `S.size` and the dropped elements exactly the ones
pushed before the failing push. -/
theorem C9_push_full_atomic (S : StTy) (l : List α) (v : α)
    (h : l.length = S.SIZE_U) :
    ∃ s, Uninit.new.extendList S.SIZE_U l = .ok s ∧
      s.push S.SIZE_U v = .error "stack storage full" ∧
      s.len = S.SIZE_U ∧ s.dropRun = some l := by
  refine ⟨stateOf l, ?_, ?_, by simpa [stateOf] using h, dropRun_stateOf l⟩
  · rw [new_eq_stateOf]
    simpa using extendList_stateOf S.SIZE_U [] l (by simp [h])
  · exact push_full _ _ v (by simp [stateOf, h])

/-- Witness for C9: a full size-2 builder rejects a third push and still
drops exactly the two pushed elements. -/
theorem C9_witness :
    ([1, 2] : List Nat).length = (StTy.arr .entry 2).SIZE_U ∧
    ∃ s, Uninit.new.extendList (StTy.arr .entry 2).SIZE_U ([1, 2] : List Nat) = .ok s ∧
      s.push (StTy.arr .entry 2).SIZE_U 3 = .error "stack storage full" ∧
      s.len = (StTy.arr .entry 2).SIZE_U ∧ s.dropRun = some [1, 2] :=
  ⟨by decide, C9_push_full_atomic (StTy.arr .entry 2) [1, 2] 3 (by decide)⟩

/-- **C10** — for any pair of indices at which `get_mut` succeeds,
`swap(i, j)` succeeds and exchanges the elements at `i` and `j` while leaving
every other index unchanged; in particular `swap(i, i)` returns the storage
unchanged (the raw-pointer self-swap is a no-op, not a corruption). -/
theorem C10_swap_spec (l : List α) (i j : Nat)
    (hi : i < l.length) (hj : j < l.length) :
    ∃ l', swapSt l i j = .ok l' ∧
      l'.get? i = l.get? j ∧ l'.get? j = l.get? i ∧
      (∀ k, k ≠ i → k ≠ j → l'.get? k = l.get? k) ∧
      (i = j → l' = l) := by
  cases hga : l.get? i with
  | none =>
      rw [List.get?_eq_none] at hga
      omega
  | some a =>
      cases hgb : l.get? j with
      | none =>
          rw [List.get?_eq_none] at hgb
          omega
      | some b =>
          refine ⟨(l.set i b).set j a, ?_, ?_, ?_, ?_, ?_⟩
          · unfold swapSt
            rw [hga, hgb]
          · by_cases hij : i = j
            · subst hij
              have hab : a = b := Option.some.inj (hga.symm.trans hgb)
              rw [List.get?_set_eq_of_lt a (by simpa using hi), hab]
            · rw [List.get?_set_ne a _ (Ne.symm hij),
                List.get?_set_eq_of_lt b hi]
          · rw [List.get?_set_eq_of_lt a (by simpa using hj)]
          · intro k hki hkj
            rw [List.get?_set_ne a _ (fun hjk => hkj hjk.symm),
              List.get?_set_ne b _ (fun hik => hki hik.symm)]
          · intro hij
            subst hij
            rw [List.set_set]
            apply List.ext_get?_iff.mpr
            intro n
            by_cases hn : n = i
            · subst hn
              rw [List.get?_set_eq_of_lt a hi, hga]
            · exact List.get?_set_ne a l (fun hin => hn hin.symm)

/-- Witness for C10: swapping indices 0 and 2 of `[1, 2, 3]`, whose `get_mut`
succeeds at both. -/
theorem C10_witness :
    (0 : Nat) < ([1, 2, 3] : List Nat).length ∧
    (2 : Nat) < ([1, 2, 3] : List Nat).length ∧
    ∃ l', swapSt ([1, 2, 3] : List Nat) 0 2 = .ok l' ∧
      l'.get? 0 = ([1, 2, 3] : List Nat).get? 2 ∧
      l'.get? 2 = ([1, 2, 3] : List Nat).get? 0 ∧
      (∀ k, k ≠ 0 → k ≠ 2 → l'.get? k = ([1, 2, 3] : List Nat).get? k) ∧
      ((0 : Nat) = 2 → l' = [1, 2, 3]) :=
  ⟨by decide, by decide, C10_swap_spec [1, 2, 3] 0 2 (by decide) (by decide)⟩

end NmathStorage
